import Mathlib

/-
Verification of the fuzzel-secrets core: the Field/Secret data model
(src/fuzzel-secrets/src/field.rs, secret.rs), the picker adapter's
string handling (fuzzel.rs) and the store/retrieve workflows (main.rs).

Rust strings are modelled as lists of Unicode characters.  All patterns
searched for by the code (": ") are ASCII, so character indices coincide
with the byte indices used by the Rust code at every split point.
External collaborators (the fuzzel picker process, the Secret Service
backend, wtype) are modelled as oracles supplied through environment
records; the workflows additionally return the trace of persist /wtype
calls they make, so that "exactly one persist call" and "no injection
call" are directly statable.
-/

set_option maxHeartbeats 1000000

namespace FuzzelSecrets

/-- Strings at character granularity. -/
abbrev Str := List Char

/-- Rust str starts_with for a literal pattern. -/
def startsWith : Str → Str → Bool
  | _, [] => true
  | [], _ :: _ => false
  | c :: s, p :: ps => c == p && startsWith s ps

/-- Rust str contains for a literal pattern: does p occur as a contiguous
substring of s? -/
def containsSub (s p : Str) : Bool :=
  match s with
  | [] => p.isEmpty
  | _ :: t => startsWith s p || containsSub t p

/-- Rust str find for a literal pattern: position of the first occurrence. -/
def findSub (s p : Str) : Option Nat :=
  if startsWith s p then some 0
  else
    match s with
    | [] => none
    | _ :: t => (findSub t p).map (· + 1)

/-- Rust String to_lowercase, modelled character-wise.  Char.toLower lowercases
the ASCII range; Rust additionally applies the Unicode (possibly one-to-many)
mappings, so the model is faithful for ASCII case-folding, which is the
regime the specification commits to. -/
def toLowercase (s : Str) : Str := s.map Char.toLower

/-- Field (field.rs): a key/value pair. -/
structure Field where
  key : Str
  value : Str
  deriving DecidableEq

namespace Field

/-- Field::new. -/
def new (key value : Str) : Field := ⟨key, value⟩

/-- Field::is_key_sensitive (field.rs): the lowercased key contains
"password", "secret" or "token". -/
def is_key_sensitive (key : Str) : Bool :=
  let key_lower := toLowercase key
  containsSub key_lower ("password".toList) || containsSub key_lower ("secret".toList)
    || containsSub key_lower ("token".toList)

/-- Field::is_sensitive. -/
def is_sensitive (f : Field) : Bool := is_key_sensitive f.key

/-- The mask: "*".repeat(8). -/
def mask : Str := List.replicate 8 '*'

/-- Field::display_value: the mask for sensitive fields, else the raw value. -/
def display_value (f : Field) : Str := if f.is_sensitive then mask else f.value

/-- The ": " separator used by display / parse_from_display. -/
def sep : Str := [':', ' ']

/-- Field::display: "key: display_value". -/
def display (f : Field) : Str := f.key ++ sep ++ f.display_value

/-- Field::parse_from_display: split at the first occurrence of ": ";
none models the anyhow FormatError. -/
def parse_from_display (s : Str) : Option Field :=
  (findSub s sep).map (fun pos => Field.new (s.take pos) (s.drop (pos + 2)))

end Field

/- Characterisations of the string-search primitives. -/

theorem startsWith_iff (s p : Str) : startsWith s p = true ↔ ∃ r, s = p ++ r := by
  induction p generalizing s with
  | nil =>
    constructor
    · intro _; exact ⟨s, rfl⟩
    · intro _; cases s <;> rfl
  | cons c ps ih =>
    cases s with
    | nil =>
      constructor
      · intro h; simp [startsWith] at h
      · rintro ⟨r, hr⟩; simp at hr
    | cons a t =>
      constructor
      · intro h
        have h1 : (a == c) = true ∧ startsWith t ps = true := by
          simpa [startsWith, Bool.and_eq_true] using h
        obtain ⟨r, hr⟩ := (ih t).mp h1.2
        refine ⟨r, ?_⟩
        simp [beq_iff_eq.mp h1.1, hr]
      · rintro ⟨r, hr⟩
        have ha : a = c := by simpa using congrArg (fun l => List.head? l) hr
        have ht : t = ps ++ r := by simpa using congrArg (fun l => List.tail l) hr
        have := (ih t).mpr ⟨r, ht⟩
        simp [startsWith, ha, this]

theorem startsWith_append (p r : Str) : startsWith (p ++ r) p = true :=
  (startsWith_iff _ _).mpr ⟨r, rfl⟩

theorem contains_iff (s p : Str) : containsSub s p = true ↔ ∃ a b, s = a ++ p ++ b := by
  induction s with
  | nil =>
    constructor
    · intro h
      have hp : p = [] := by
        cases p with
        | nil => rfl
        | cons c t => simp [containsSub] at h
      exact ⟨[], [], by simp [hp]⟩
    · rintro ⟨a, b, hab⟩
      have : a = [] ∧ p = [] := by
        constructor
        · cases a with
          | nil => rfl
          | cons x xs => simp at hab
        · cases p with
          | nil => rfl
          | cons x xs => cases a <;> simp at hab
      simp [containsSub, this.2]
  | cons x t ih =>
    constructor
    · intro h
      rcases (Bool.or_eq_true _ _).mp (by simpa [containsSub] using h) with h1 | h2
      · obtain ⟨r, hr⟩ := (startsWith_iff _ _).mp h1
        exact ⟨[], r, by simp [hr]⟩
      · obtain ⟨a, b, hab⟩ := ih.mp h2
        exact ⟨x :: a, b, by simp [hab]⟩
    · rintro ⟨a, b, hab⟩
      cases a with
      | nil =>
        have : startsWith (x :: t) p = true := by
          rw [startsWith_iff]
          exact ⟨b, by simpa using hab⟩
        simp [containsSub, this]
      | cons y ys =>
        have hy : t = ys ++ p ++ b := by simpa using congrArg (fun l => List.tail l) hab
        have := ih.mpr ⟨ys, b, hy⟩
        simp [containsSub, this]

theorem findSub_isSome (s p : Str) : (findSub s p).isSome = containsSub s p := by
  induction s with
  | nil =>
    by_cases h : startsWith [] p = true
    · simp [findSub, containsSub, h]
      cases p with
      | nil => simp
      | cons c t => simp [startsWith] at h
    · simp [findSub, containsSub, h]
      cases p with
      | nil => simp [startsWith] at h
      | cons c t => simp
  | cons x t ih =>
    by_cases h : startsWith (x :: t) p = true
    · simp [findSub, containsSub, h]
    · simp [findSub, containsSub, h, ih]

theorem findSub_some (s p : Str) (i : Nat) (h : findSub s p = some i) :
    startsWith (s.drop i) p = true ∧ ∀ j, startsWith (s.drop j) p = true → i ≤ j := by
  induction s generalizing i with
  | nil =>
    by_cases hs : startsWith ([] : Str) p = true
    · have : i = 0 := by simpa [findSub, hs] using h.symm
      subst this
      exact ⟨by simpa using hs, fun j _ => Nat.zero_le j⟩
    · simp [findSub, hs] at h
  | cons x t ih =>
    by_cases hs : startsWith (x :: t) p = true
    · have : i = 0 := by simpa [findSub, hs] using h.symm
      subst this
      exact ⟨by simpa using hs, fun j _ => Nat.zero_le j⟩
    · have h' : (findSub t p).map (· + 1) = some i := by simpa [findSub, hs] using h
      obtain ⟨i', hi', rfl⟩ := Option.map_eq_some'.mp h'
      obtain ⟨h1, h2⟩ := ih i' hi'
      refine ⟨by simpa using h1, ?_⟩
      intro j hj
      cases j with
      | zero => exact absurd (by simpa using hj) hs
      | succ j' => exact Nat.succ_le_succ (h2 j' (by simpa using hj))

theorem findSub_boundary (k rest : Str) (hk : containsSub k Field.sep = false) :
    findSub (k ++ Field.sep ++ rest) Field.sep = some k.length := by
  induction k with
  | nil =>
    have : startsWith (Field.sep ++ rest) Field.sep = true := startsWith_append _ _
    simp [findSub, this]
  | cons c k' ih =>
    have hsw : startsWith (c :: k') Field.sep = false ∧ containsSub k' Field.sep = false := by
      constructor
      · cases h : startsWith (c :: k') Field.sep with
        | false => rfl
        | true => simp [containsSub, h] at hk
      · cases h : containsSub k' Field.sep with
        | false => rfl
        | true => simp [containsSub, h] at hk
    have hmain : startsWith (c :: (k' ++ Field.sep ++ rest)) Field.sep = false := by
      cases k' with
      | nil => simp [Field.sep, startsWith]
      | cons d k'' =>
        have := hsw.1
        simp only [Field.sep, startsWith, Bool.and_eq_true] at this ⊢
        simpa using this
    have := ih hsw.2
    simp only [List.cons_append]
    rw [findSub]
    simp only [hmain, if_false, Bool.false_eq_true]
    simp only [List.append_assoc] at this
    simp [this]

/-- Splitting a display-shaped string whose key part is separator-free
recovers key and value exactly. -/
theorem parse_display (k dv : Str) (hk : containsSub k Field.sep = false) :
    Field.parse_from_display (k ++ Field.sep ++ dv) = some (Field.new k dv) := by
  unfold Field.parse_from_display
  rw [findSub_boundary k dv hk]
  simp only [Option.map_some']
  congr 1
  unfold Field.new
  congr 1
  · rw [List.append_assoc]
    exact List.take_left k (Field.sep ++ dv)
  · have hlen : k.length + 2 = (k ++ Field.sep).length := by
      simp [Field.sep]
    rw [hlen]
    exact List.drop_left (k ++ Field.sep) dv

/- Secret (secret.rs): a HashMap from field key to field value, modelled as
an association list carrying the map invariant (no two entries share a key).
Iteration order of the list stands in for the HashMap's arbitrary iteration
order. -/

/-- JSON documents at the granularity serde_json presents them to this crate:
the Secret serialises (serde flatten) to an object all of whose members are
strings; any other document shape fails to deserialise. -/
inductive Json where
  | jstr : Str → Json
  | jobj : List (Str × Json) → Json
  | jnull : Json

/-- Secret (secret.rs): fields is the HashMap<String, String>. -/
structure Secret where
  fields : List (Str × Str)
  nodupKeys : (fields.map Prod.fst).Nodup

namespace Secret

/-- Secret::new. -/
def new : Secret := ⟨[], List.nodup_nil⟩

/-- HashMap lookup on the association list. -/
def lookupKV : List (Str × Str) → Str → Option Str
  | [], _ => none
  | p :: rest, k => if p.1 = k then some p.2 else lookupKV rest k

theorem insert_keys_nodup (l : List (Str × Str)) (k v : Str)
    (h : (l.map Prod.fst).Nodup) :
    (((k, v) :: l.filter (fun p => !decide (p.1 = k))).map Prod.fst).Nodup := by
  simp only [List.map_cons, List.nodup_cons]
  constructor
  · intro hmem
    obtain ⟨p, hp, hk⟩ := List.mem_map.mp hmem
    have := List.of_mem_filter hp
    simp only [Bool.not_eq_true', decide_eq_false_iff_not] at this
    exact this hk
  · exact h.sublist (List.Sublist.map Prod.fst (List.filter_sublist l))

/-- Secret::insert: HashMap insert-or-replace. -/
def insert (s : Secret) (k v : Str) : Secret :=
  ⟨(k, v) :: s.fields.filter (fun p => !decide (p.1 = k)),
    insert_keys_nodup s.fields k v s.nodupKeys⟩

/-- The key-to-value mapping of a Secret. -/
def getVal (s : Secret) (k : Str) : Option Str := lookupKV s.fields k

/-- Secret::get: returns the field for a key. -/
def get (s : Secret) (k : Str) : Option Field :=
  (s.getVal k).map (fun v => Field.new k v)

/-- Secret::is_empty. -/
def is_empty (s : Secret) : Bool := s.fields.isEmpty

/-- Secret::keys (HashMap iteration order). -/
def keys (s : Secret) : List Str := s.fields.map Prod.fst

/-- Secret::len. -/
def len (s : Secret) : Nat := s.fields.length

theorem lookupKV_filter_ne (l : List (Str × Str)) (k k' : Str) (h : k' ≠ k) :
    lookupKV (l.filter (fun p => !decide (p.1 = k))) k' = lookupKV l k' := by
  induction l with
  | nil => rfl
  | cons p rest ih =>
    by_cases hp : p.1 = k
    · rw [List.filter_cons, if_neg (by simp [hp])]
      rw [ih]
      have hne : ¬ p.1 = k' := by rw [hp]; exact fun hc => h hc.symm
      conv_rhs => rw [lookupKV]
      rw [if_neg hne]
    · rw [List.filter_cons, if_pos (by simp [hp])]
      by_cases hp' : p.1 = k'
      · simp only [lookupKV, if_pos hp']
      · simp only [lookupKV, if_neg hp']
        exact ih

theorem getVal_insert (s : Secret) (k v k' : Str) :
    (s.insert k v).getVal k' = if k' = k then some v else s.getVal k' := by
  by_cases h : k' = k
  · simp [insert, getVal, lookupKV, h]
  · have hne : ¬ k = k' := fun hc => h hc.symm
    unfold insert getVal
    simp only [lookupKV, if_neg hne, if_neg h]
    exact lookupKV_filter_ne s.fields k k' h

theorem lookupKV_eq_none (l : List (Str × Str)) (k : Str)
    (h : k ∉ l.map Prod.fst) : lookupKV l k = none := by
  induction l with
  | nil => rfl
  | cons p rest ih =>
    simp only [List.map_cons, List.mem_cons, not_or] at h
    have : ¬ p.1 = k := fun hc => h.1 hc.symm
    simp [lookupKV, this, ih h.2]

/-- serde_json::to_string of a Secret: a flat object of string members,
one per field, in iteration order. -/
def serialize (s : Secret) : Json :=
  Json.jobj (s.fields.map (fun p => (p.1, Json.jstr p.2)))

/-- serde deserialisation of the flattened map: every member must be a
string; members are inserted in document order (later duplicates win,
as for HashMap). -/
def readEntries : List (Str × Json) → Secret → Option Secret
  | [], acc => some acc
  | (k, Json.jstr v) :: rest, acc => readEntries rest (acc.insert k v)
  | _ :: _, _ => none

/-- serde_json::from_str into a Secret. -/
def deserialize : Json → Option Secret
  | Json.jobj entries => readEntries entries Secret.new
  | _ => none

theorem readEntries_serialized (l : List (Str × Str)) (acc : Secret) :
    readEntries (l.map (fun p => (p.1, Json.jstr p.2))) acc
      = some (l.foldl (fun a p => a.insert p.1 p.2) acc) := by
  induction l generalizing acc with
  | nil => rfl
  | cons p rest ih => simp [readEntries, ih]

theorem getVal_foldl_insert (l : List (Str × Str)) (acc : Secret)
    (hnd : (l.map Prod.fst).Nodup) (k : Str) :
    (l.foldl (fun a p => a.insert p.1 p.2) acc).getVal k =
      match lookupKV l k with
      | some v => some v
      | none => acc.getVal k := by
  induction l generalizing acc with
  | nil => rfl
  | cons p rest ih =>
    simp only [List.map_cons, List.nodup_cons] at hnd
    simp only [List.foldl_cons]
    rw [ih (acc.insert p.1 p.2) hnd.2]
    by_cases h : p.1 = k
    · have hrest : lookupKV rest k = none :=
        lookupKV_eq_none rest k (h ▸ hnd.1)
      simp [lookupKV, h, hrest, getVal_insert]
    · have hne : ¬ k = p.1 := fun hc => h hc.symm
      simp only [lookupKV, h, if_false]
      cases hl : lookupKV rest k with
      | some v => simp
      | none => simp [getVal_insert, hne]

end Secret

/- Vec::sort on Vec<String>: stable lexicographic sort.  Rust compares the
UTF-8 bytes of the strings, which orders exactly as the code points, so a
character-wise lexicographic order is faithful. -/

/-- Lexicographic order on strings (code-point order). -/
def lexLe : Str → Str → Bool
  | [], _ => true
  | _ :: _, [] => false
  | a :: s, b :: t => if a < b then true else if b < a then false else lexLe s t

/-- Stable insertion into a sorted list. -/
def insertSorted (x : Str) : List Str → List Str
  | [] => [x]
  | y :: ys => if lexLe x y then x :: y :: ys else y :: insertSorted x ys

/-- Vec::sort (stable, lexicographic). -/
def sortStrings : List Str → List Str
  | [] => []
  | x :: xs => insertSorted x (sortStrings xs)

/- Picker adapter (fuzzel.rs).  Each call runs the external fuzzel process;
what the process did is an oracle.  The code's own contribution is: fail on
unsuccessful exit status, fail on invalid UTF-8 stdout, and trim the decoded
output. -/

/-- The observable outcome of one fuzzel process invocation: its exit status
and its stdout decoded from UTF-8 (none when the bytes are not valid UTF-8). -/
structure ProcOutput where
  success : Bool
  stdoutUtf8 : Option Str

/-- Rust char::is_whitespace: the Unicode White_Space property. -/
def isRustWhitespace (c : Char) : Bool :=
  c.toNat == 0x09 || c.toNat == 0x0A || c.toNat == 0x0B || c.toNat == 0x0C
    || c.toNat == 0x0D || c.toNat == 0x20 || c.toNat == 0x85 || c.toNat == 0xA0
    || c.toNat == 0x1680 || (0x2000 ≤ c.toNat && c.toNat ≤ 0x200A)
    || c.toNat == 0x2028 || c.toNat == 0x2029 || c.toNat == 0x202F
    || c.toNat == 0x205F || c.toNat == 0x3000

/-- Rust str::trim: strip leading and trailing whitespace. -/
def rustTrim (s : Str) : Str :=
  ((s.dropWhile isRustWhitespace).reverse.dropWhile isRustWhitespace).reverse

/-- fuzzel.rs request_password: bail on failure status, decode stdout, trim. -/
def request_password (o : ProcOutput) : Option Str :=
  if o.success then o.stdoutUtf8.map rustTrim else none

/-- fuzzel.rs request_input: bail on failure status, decode stdout, trim. -/
def request_input (o : ProcOutput) : Option Str :=
  if o.success then o.stdoutUtf8.map rustTrim else none

/-- fuzzel.rs select_or_input: like request_input but with the candidate list
on the process's stdin (which does not affect the returned string). -/
def select_or_input (o : ProcOutput) : Option Str :=
  if o.success then o.stdoutUtf8.map rustTrim else none

/-- fuzzel.rs select: select_index follwed by items.get; a missing index
(cancellation, non-numeric output, out of range) is a failure. -/
def fuzzelSelect (items : List Str) (idx : Option Nat) : Option Str :=
  idx.bind (fun i => items.get? i)

/- Workflows (main.rs).  Errors are collapsed to their kind; each anyhow
error the workflow can surface is one constructor. -/

/-- Workflow error kinds. -/
inductive WfError where
  | pickerError
  | backendError
  | emptyRecordError
  | formatError
  | fieldNotFound
  | injectionError
  | persistError
  deriving DecidableEq

/-- Oracle for one run of the retrieve workflow: the backend's label list,
the picker's two index answers, the backend's record fetch, and whether the
wtype process could be spawned. -/
structure RetrieveEnv where
  labels : Option (List Str)
  labelIdx : Option Nat
  getData : Str → Option Secret
  fieldIdx : Option Nat
  wtypeOk : Bool

/-- main.rs retrieve.  Returns the workflow result together with the list of
values passed to the wtype text-injection process (its trace of injection
calls). -/
def retrieve (env : RetrieveEnv) : Except WfError Unit × List Str :=
  match env.labels with
  | none => (.error .backendError, [])
  | some ls =>
    match fuzzelSelect (sortStrings ls) env.labelIdx with
    | none => (.error .pickerError, [])
    | some label =>
      match env.getData label with
      | none => (.error .backendError, [])
      | some data =>
        if data.is_empty then (.error .emptyRecordError, [])
        else
          match fuzzelSelect data.keys env.fieldIdx with
          | none => (.error .pickerError, [])
          | some fieldKey =>
            match data.get fieldKey with
            | none => (.error .fieldNotFound, [])
            | some f =>
              if env.wtypeOk then (.ok (), [f.value])
              else (.error .injectionError, [f.value])

/-- The picker answers consumed by one iteration of the store edit loop:
the menu selection index, the field-name answer (add-field branch) and the
value answer.  none models a failed picker call. -/
structure StoreIter where
  menuIdx : Option Nat
  keyInput : Option Str
  valueInput : Option Str

/-- Oracle for one run of the store workflow. -/
structure StoreEnv where
  allFieldKeys : Option (List Str)
  labels : Option (List Str)
  labelChoice : Option Str
  getData : Str → Option Secret
  script : List StoreIter
  persistOk : Bool

/-- main.rs store: the "+   Add field" sentinel. -/
def addFieldOption : Str := "+   Add field".toList

/-- main.rs store: the "✓   Complete" sentinel. -/
def completeOption : Str := "✓   Complete".toList

/-- main.rs store: the edit-loop menu — the two sentinels followed by the
current fields rendered via display() and sorted. -/
def menuItems (data : Secret) : List Str :=
  addFieldOption :: completeOption
    :: sortStrings (data.fields.map (fun p => Field.display (Field.new p.1 p.2)))

/-- One iteration of the store edit loop. -/
inductive StepResult where
  | cont (d : Secret)
  | complete (d : Secret)
  | fail (e : WfError)

/-- main.rs store, loop body: select a menu entry; "complete" exits, "add
field" asks for a key and a value, anything else is an existing field's
display string, parsed back to recover the key before asking for a value.
(Whether the value prompt is the masked or the plain variant depends on the
key's sensitivity but does not change the returned string.) -/
def editStep (it : StoreIter) (data : Secret) : StepResult :=
  match fuzzelSelect (menuItems data) it.menuIdx with
  | none => .fail .pickerError
  | some selection =>
    if selection = completeOption then .complete data
    else if selection = addFieldOption then
      match it.keyInput with
      | none => .fail .pickerError
      | some key =>
        match it.valueInput with
        | none => .fail .pickerError
        | some v => .cont (data.insert key v)
    else
      match Field.parse_from_display selection with
      | none => .fail .formatError
      | some f =>
        match it.valueInput with
        | none => .fail .pickerError
        | some v => .cont (data.insert f.key v)

/-- main.rs store, edit loop: iterate until "complete" (ok) or a failure.
The finite script stands for the picker interactions of the run; a run that
would consume more is one of the aborted (picker-failure) runs. -/
def editLoop : List StoreIter → Secret → Except WfError Secret
  | [], _ => .error .pickerError
  | it :: rest, data =>
    match editStep it data with
    | .fail e => .error e
    | .complete d => .ok d
    | .cont d => editLoop rest d

/-- main.rs store, starting state: the existing record's data when the chosen
label equals one of the fetched labels, an empty Secret otherwise. -/
def initialData (env : StoreEnv) (sortedLabels : List Str) (label : Str) :
    Except WfError Secret :=
  match sortedLabels.find? (fun s => s == label) with
  | some _ =>
    match env.getData label with
    | some d => .ok d
    | none => .error .backendError
  | none => .ok Secret.new

/-- main.rs store.  Returns the workflow result together with the list of
persist calls made to the backend (label and full serialized Secret);
secrets::store is called at most once, at the very end. -/
def store (env : StoreEnv) : Except WfError Unit × List (Str × Secret) :=
  match env.labels with
  | none => (.error .backendError, [])
  | some ls =>
    match env.labelChoice with
    | none => (.error .pickerError, [])
    | some label =>
      match initialData env (sortStrings ls) label with
      | .error e => (.error e, [])
      | .ok d0 =>
        match env.allFieldKeys with
        | none => (.error .backendError, [])
        | some _ =>
          match editLoop env.script d0 with
          | .error e => (.error e, [])
          | .ok d =>
            if d.is_empty then (.error .emptyRecordError, [])
            else
              (if env.persistOk then Except.ok () else Except.error .persistError,
                [(label, d)])

/- Claims about the Field model. -/

/-- C3 (amended): for every Field f whose key is not sensitive and does not
contain the separator ": ", parse_from_display(display(f)) succeeds and
returns f itself.  (The restriction on the key is forced: display strings
are split at the first ": ", so a key containing the separator is not
recovered — see the counterexample.) -/
theorem display_roundtrip_no_sep (f : Field)
    (hsens : f.is_sensitive = false)
    (hsep : containsSub f.key Field.sep = false) :
    Field.parse_from_display f.display = some f := by
  have hd : f.display = f.key ++ Field.sep ++ f.value := by
    simp [Field.display, Field.display_value, hsens]
  rw [hd, parse_display f.key f.value hsep]
  rfl

/-- C3 witness: the round-trip theorem applied to the non-sensitive field
(user, alice). -/
theorem display_roundtrip_no_sep_witness :
    Field.parse_from_display (Field.display (Field.new ("user".toList) ("alice".toList)))
      = some (Field.new ("user".toList) ("alice".toList)) :=
  display_roundtrip_no_sep (Field.new ("user".toList) ("alice".toList))
    (by decide) (by decide)

/-- C3 counterexample: the non-sensitive field with key "a: b" and value "c"
displays as "a: b: c", which parses back to the different field (a, b: c),
so the unrestricted round-trip claim is false. -/
theorem display_roundtrip_cex :
    Field.is_sensitive (Field.new ("a: b".toList) ("c".toList)) = false
    ∧ Field.parse_from_display (Field.display (Field.new ("a: b".toList) ("c".toList)))
        ≠ some (Field.new ("a: b".toList) ("c".toList))
    ∧ Field.parse_from_display (Field.display (Field.new ("a: b".toList) ("c".toList)))
        = some (Field.new ("a".toList) ("b: c".toList)) := by
  refine ⟨by decide, by decide, by decide⟩

/-- C4 (amended): for every Field f whose key is sensitive and does not
contain the separator ": ", parse_from_display(display(f)) succeeds with
f's key and the literal 8-asterisk mask as value.  (The key restriction is
forced, as for C3 — see the counterexample.) -/
theorem masked_display_parse (f : Field)
    (hsens : f.is_sensitive = true)
    (hsep : containsSub f.key Field.sep = false) :
    Field.parse_from_display f.display = some (Field.new f.key ("********".toList)) := by
  have hm : Field.mask = "********".toList := by decide
  have hd : f.display = f.key ++ Field.sep ++ ("********".toList) := by
    rw [← hm]
    simp [Field.display, Field.display_value, hsens]
  rw [hd, parse_display f.key _ hsep]

/-- C4 witness: the masked-parse theorem applied to the sensitive field
(token, abc). -/
theorem masked_display_parse_witness :
    Field.parse_from_display (Field.display (Field.new ("token".toList) ("abc".toList)))
      = some (Field.new ("token".toList) ("********".toList)) :=
  masked_display_parse (Field.new ("token".toList) ("abc".toList))
    (by decide) (by decide)

/-- C4 counterexample: the sensitive field with key "a: token" displays as
"a: token: ********", which parses back with key "a", not "a: token", so the
unrestricted claim is false. -/
theorem masked_display_parse_cex :
    Field.is_sensitive (Field.new ("a: token".toList) ("x".toList)) = true
    ∧ (Field.parse_from_display
          (Field.display (Field.new ("a: token".toList) ("x".toList)))).map Field.key
        ≠ some ("a: token".toList) := by
  refine ⟨by decide, by decide⟩

/-- C5: is_key_sensitive k is true exactly when the lowercase form of k
contains "password", "secret" or "token" as a substring (ASCII
case-folding, per the model of to_lowercase). -/
theorem is_key_sensitive_iff (k : Str) :
    Field.is_key_sensitive k = true ↔
      ((∃ a b, toLowercase k = a ++ "password".toList ++ b)
        ∨ (∃ a b, toLowercase k = a ++ "secret".toList ++ b)
        ∨ (∃ a b, toLowercase k = a ++ "token".toList ++ b)) := by
  simp only [Field.is_key_sensitive, Bool.or_eq_true, contains_iff]
  exact or_assoc

/-- C6: parse_from_display fails exactly on inputs with no occurrence of
": "; on success the key is the part before the first occurrence and the
value the part after it. -/
theorem parse_from_display_first_split (s : Str) :
    (Field.parse_from_display s = none ↔ ¬ ∃ a b, s = a ++ Field.sep ++ b)
    ∧ (∀ k v, Field.parse_from_display s = some (Field.new k v) →
        s = k ++ Field.sep ++ v
          ∧ ∀ a b, s = a ++ Field.sep ++ b → k.length ≤ a.length) := by
  constructor
  · have hiff : Field.parse_from_display s = none ↔ findSub s Field.sep = none := by
      unfold Field.parse_from_display
      cases hf : findSub s Field.sep <;> simp
    have hnone : findSub s Field.sep = none ↔ containsSub s Field.sep = false := by
      rw [← findSub_isSome]
      cases hf : findSub s Field.sep <;> simp
    rw [hiff, hnone]
    constructor
    · intro h hex
      have := (contains_iff s Field.sep).mpr hex
      rw [h] at this
      exact Bool.false_ne_true this
    · intro h
      cases hc : containsSub s Field.sep with
      | false => rfl
      | true => exact absurd ((contains_iff s Field.sep).mp hc) h
  · intro k v hkv
    unfold Field.parse_from_display at hkv
    obtain ⟨i, hi, heq⟩ := Option.map_eq_some'.mp hkv
    have hk : k = s.take i := by
      have := (Field.mk.injEq _ _ _ _).mp heq
      exact this.1.symm
    have hv : v = s.drop (i + 2) := by
      have := (Field.mk.injEq _ _ _ _).mp heq
      exact this.2.symm
    obtain ⟨hstart, hmin⟩ := findSub_some s Field.sep i hi
    obtain ⟨r, hr⟩ := (startsWith_iff _ _).mp hstart
    have hsplit : s = s.take i ++ Field.sep ++ s.drop (i + 2) := by
      have h2 : s.drop (i + 2) = r := by
        have hdd : s.drop (i + 2) = (s.drop i).drop 2 := by
          rw [List.drop_drop, Nat.add_comm]
        rw [hdd, hr]
        simp [Field.sep]
      rw [h2, List.append_assoc, ← hr]
      exact (List.take_append_drop i s).symm
    constructor
    · rw [hk, hv]
      exact hsplit
    · intro a b hab
      have hsw : startsWith (s.drop a.length) Field.sep = true := by
        have hdl : s.drop a.length = Field.sep ++ b := by
          rw [hab, List.append_assoc]
          exact List.drop_left a (Field.sep ++ b)
        rw [hdl]
        exact startsWith_append _ _
      have hia := hmin a.length hsw
      rw [hk]
      simp only [List.length_take]
      exact le_trans (Nat.min_le_left _ _) hia

/-- C6 witness: the split theorem applied to "key: value" (successful split)
and, through the failure direction, to "no-separator-here". -/
theorem parse_from_display_first_split_witness :
    ("key: value".toList = "key".toList ++ Field.sep ++ "value".toList)
    ∧ ¬ ∃ a b, "no-separator-here".toList = a ++ Field.sep ++ b := by
  constructor
  · exact ((parse_from_display_first_split ("key: value".toList)).2
      ("key".toList) ("value".toList) (by decide)).1
  · exact (parse_from_display_first_split ("no-separator-here".toList)).1.mp (by decide)

/-- C8: every Secret — empty, singleton or many-entry, with arbitrary keys
and values (spaces, colons, unicode included) — serialises to the flat JSON
object and deserialises back to a Secret with an equal key-to-value
mapping. -/
theorem secret_serialize_roundtrip (s : Secret) :
    ∃ t, Secret.deserialize (Secret.serialize s) = some t
      ∧ ∀ k, t.getVal k = s.getVal k := by
  refine ⟨s.fields.foldl (fun a p => a.insert p.1 p.2) Secret.new, ?_, ?_⟩
  · simp [Secret.deserialize, Secret.serialize, Secret.readEntries_serialized]
  · intro k
    rw [Secret.getVal_foldl_insert s.fields Secret.new s.nodupKeys k]
    cases h : Secret.lookupKV s.fields k with
    | some v => simp [Secret.getVal, h]
    | none => simp [Secret.getVal, h, Secret.new, Secret.lookupKV]

/- Trimming facts for the picker adapter. -/

theorem head_dropWhile_false (p : Char → Bool) (l : Str) (c : Char)
    (h : (l.dropWhile p).head? = some c) : p c = false := by
  induction l with
  | nil => simp [List.dropWhile] at h
  | cons a t ih =>
    rw [List.dropWhile_cons] at h
    by_cases hp : p a
    · rw [if_pos hp] at h
      exact ih h
    · rw [if_neg hp] at h
      have : a = c := by simpa using h
      rw [← this]
      simpa using hp

theorem dropWhile_concat_false (p : Char → Bool) (x : Char) (hx : p x = false)
    (ys : Str) : ∃ zs, (ys ++ [x]).dropWhile p = zs ++ [x] := by
  induction ys with
  | nil =>
    refine ⟨[], ?_⟩
    simp [List.dropWhile, hx]
  | cons a t ih =>
    by_cases hp : p a
    · obtain ⟨zs, hz⟩ := ih
      refine ⟨zs, ?_⟩
      simpa [List.dropWhile_cons, hp] using hz
    · exact ⟨a :: t, by simp [List.dropWhile_cons, hp]⟩

theorem rustTrim_head (raw : Str) (c : Char) (h : (rustTrim raw).head? = some c) :
    isRustWhitespace c = false := by
  unfold rustTrim at h
  cases hl : raw.dropWhile isRustWhitespace with
  | nil => rw [hl] at h; simp at h
  | cons x rest =>
    have hx : isRustWhitespace x = false :=
      head_dropWhile_false _ _ _ (by rw [hl]; rfl)
    obtain ⟨zs, hz⟩ := dropWhile_concat_false isRustWhitespace x hx rest.reverse
    rw [hl, List.reverse_cons, hz] at h
    have : c = x := by simpa using h.symm
    rw [this]
    exact hx

theorem rustTrim_getLast (raw : Str) (c : Char)
    (h : (rustTrim raw).getLast? = some c) : isRustWhitespace c = false := by
  unfold rustTrim at h
  rw [List.getLast?_reverse] at h
  exact head_dropWhile_false _ _ _ h

theorem rustTrim_all_ws (raw : Str) (h : ∀ c ∈ raw, isRustWhitespace c = true) :
    rustTrim raw = [] := by
  have h1 : raw.dropWhile isRustWhitespace = [] :=
    List.dropWhile_eq_nil_iff.mpr h
  simp [rustTrim, h1]

/-- C10: every string returned successfully by request_password,
request_input or select_or_input is the fuzzel process's decoded output
with leading and trailing whitespace removed; consequently it never begins
or ends with whitespace, and whitespace-only output yields the empty
string. -/
theorem picker_output_trimmed (o : ProcOutput) (s : Str)
    (h : request_password o = some s ∨ request_input o = some s
      ∨ select_or_input o = some s) :
    (∃ raw, o.stdoutUtf8 = some raw ∧ s = rustTrim raw)
    ∧ (∀ c, s.head? = some c → isRustWhitespace c = false)
    ∧ (∀ c, s.getLast? = some c → isRustWhitespace c = false)
    ∧ (∀ raw, o.stdoutUtf8 = some raw →
        (∀ c ∈ raw, isRustWhitespace c = true) → s = []) := by
  have hmap : o.stdoutUtf8.map rustTrim = some s := by
    rcases h with h | h | h
    · unfold request_password at h
      by_cases hsu : o.success
      · rwa [if_pos hsu] at h
      · rw [if_neg hsu] at h; exact absurd h (by simp)
    · unfold request_input at h
      by_cases hsu : o.success
      · rwa [if_pos hsu] at h
      · rw [if_neg hsu] at h; exact absurd h (by simp)
    · unfold select_or_input at h
      by_cases hsu : o.success
      · rwa [if_pos hsu] at h
      · rw [if_neg hsu] at h; exact absurd h (by simp)
  obtain ⟨raw, hraw, hs⟩ := Option.map_eq_some'.mp hmap
  refine ⟨⟨raw, hraw, hs.symm⟩, ?_, ?_, ?_⟩
  · intro c hc
    exact rustTrim_head raw c (hs ▸ hc)
  · intro c hc
    exact rustTrim_getLast raw c (hs ▸ hc)
  · intro raw' hraw' hall
    have : raw' = raw := by
      rw [hraw] at hraw'
      exact (Option.some.injEq _ _).mp hraw'.symm
    rw [← hs, rustTrim_all_ws raw (this ▸ hall)]

/-- C10 witness: the trimming theorem applied to a successful run whose
process output is "  hi \n" (returned string "hi"). -/
theorem picker_output_trimmed_witness :
    (∃ raw, (ProcOutput.mk true (some ("  hi \n".toList))).stdoutUtf8 = some raw
        ∧ "hi".toList = rustTrim raw)
    ∧ (∀ c, ("hi".toList).head? = some c → isRustWhitespace c = false)
    ∧ (∀ c, ("hi".toList).getLast? = some c → isRustWhitespace c = false)
    ∧ (∀ raw, (ProcOutput.mk true (some ("  hi \n".toList))).stdoutUtf8 = some raw →
        (∀ c ∈ raw, isRustWhitespace c = true) → "hi".toList = []) :=
  picker_output_trimmed (ProcOutput.mk true (some ("  hi \n".toList)))
    ("hi".toList) (Or.inl (by decide))

/-- C2: in every run of the retrieve workflow that invokes text injection,
the injected value v is the raw stored value of the field the user selected
from the fetched record — data.get returns the field and v is its value —
never the masked display form. -/
theorem retrieve_emits_raw_value (env : RetrieveEnv) (v : Str)
    (h : (retrieve env).2 = [v]) :
    ∃ ls label data k f, env.labels = some ls
      ∧ fuzzelSelect (sortStrings ls) env.labelIdx = some label
      ∧ env.getData label = some data
      ∧ fuzzelSelect data.keys env.fieldIdx = some k
      ∧ data.get k = some f
      ∧ f.key = k ∧ f.value = v ∧ data.getVal k = some v := by
  unfold retrieve at h
  split at h
  · simp at h
  next ls hls =>
    split at h
    · simp at h
    next label hsel =>
      split at h
      · simp at h
      next data hdata =>
        split at h
        · simp at h
        · split at h
          · simp at h
          next k hk =>
            split at h
            · simp at h
            next f hf =>
              have hval : f.value = v := by
                by_cases hw : env.wtypeOk
                · rw [if_pos hw] at h
                  simpa using h
                · rw [if_neg hw] at h
                  simpa using h
              obtain ⟨w, hw, hfw⟩ := Option.map_eq_some'.mp hf
              have hkey : f.key = k := by rw [← hfw]; rfl
              have hwv : w = v := by
                rw [← hval, ← hfw]
                rfl
              exact ⟨ls, label, data, k, f, hls, hsel, hdata, hk, hf, hkey, hval,
                hwv ▸ hw⟩

/-- C2 witness: the raw-value theorem applied to the wifi scenario: one
record "wifi" with the sensitive field password = xyz; the injected value is
the literal "xyz". -/
theorem retrieve_emits_raw_value_witness :
    ∃ ls label data k f,
      (RetrieveEnv.mk (some ["wifi".toList]) (some 0)
          (fun l => if l = "wifi".toList
            then some (Secret.insert Secret.new ("password".toList) ("xyz".toList))
            else none)
          (some 0) true).labels = some ls
      ∧ fuzzelSelect (sortStrings ls)
          (RetrieveEnv.mk (some ["wifi".toList]) (some 0)
            (fun l => if l = "wifi".toList
              then some (Secret.insert Secret.new ("password".toList) ("xyz".toList))
              else none)
            (some 0) true).labelIdx = some label
      ∧ (RetrieveEnv.mk (some ["wifi".toList]) (some 0)
          (fun l => if l = "wifi".toList
            then some (Secret.insert Secret.new ("password".toList) ("xyz".toList))
            else none)
          (some 0) true).getData label = some data
      ∧ fuzzelSelect data.keys (some 0) = some k
      ∧ data.get k = some f
      ∧ f.key = k ∧ f.value = "xyz".toList ∧ data.getVal k = some ("xyz".toList) :=
  retrieve_emits_raw_value _ ("xyz".toList) (by decide)

/-- C7: a retrieve run whose fetched record has zero fields fails with
EmptyRecordError and performs no text-injection call (empty trace). -/
theorem retrieve_empty_record (env : RetrieveEnv) (ls : List Str) (label : Str)
    (data : Secret)
    (hls : env.labels = some ls)
    (hsel : fuzzelSelect (sortStrings ls) env.labelIdx = some label)
    (hdata : env.getData label = some data)
    (hemp : data.is_empty = true) :
    retrieve env = (.error .emptyRecordError, []) := by
  simp [retrieve, hls, hsel, hdata, hemp]

/-- C7 witness: the empty-record theorem applied to a backend holding one
record "empty" with no fields. -/
theorem retrieve_empty_record_witness :
    retrieve (RetrieveEnv.mk (some ["empty".toList]) (some 0)
        (fun _ => some Secret.new) (some 0) true)
      = (.error .emptyRecordError, []) :=
  retrieve_empty_record _ ["empty".toList] ("empty".toList) Secret.new
    rfl (by decide) rfl rfl

/-- C9 (amended): in an edit-loop iteration selecting an existing field's
display string, for a field whose key does not contain the separator ": ",
entering new value v yields the continue state whose Secret maps that key to
v and maps every other key exactly as before.  (The key restriction is
forced: the display string is parsed back at its first ": ", so a key
containing the separator is mis-recovered — see the counterexample.) -/
theorem edit_existing_field_frame (it : StoreIter) (data : Secret) (i : Nat)
    (k v0 v : Str)
    (hk : containsSub k Field.sep = false)
    (hidx : it.menuIdx = some i)
    (hsel : (menuItems data).get? i = some (Field.display (Field.new k v0)))
    (hmem : data.getVal k = some v0)
    (hval : it.valueInput = some v) :
    editStep it data = .cont (data.insert k v)
    ∧ (data.insert k v).getVal k = some v
    ∧ ∀ k', k' ≠ k → (data.insert k v).getVal k' = data.getVal k' := by
  have hfz : fuzzelSelect (menuItems data) it.menuIdx
      = some (Field.display (Field.new k v0)) := by
    unfold fuzzelSelect
    rw [hidx]
    simpa using hsel
  have hdisp : Field.display (Field.new k v0)
      = k ++ Field.sep ++ Field.display_value (Field.new k v0) := rfl
  have hcontains : containsSub (Field.display (Field.new k v0)) Field.sep = true :=
    (contains_iff _ _).mpr ⟨k, Field.display_value (Field.new k v0), hdisp⟩
  have hne1 : ¬ Field.display (Field.new k v0) = completeOption := by
    intro he
    rw [he] at hcontains
    exact absurd hcontains (by decide)
  have hne2 : ¬ Field.display (Field.new k v0) = addFieldOption := by
    intro he
    rw [he] at hcontains
    exact absurd hcontains (by decide)
  have hparse : Field.parse_from_display (Field.display (Field.new k v0))
      = some (Field.new k (Field.display_value (Field.new k v0))) := by
    rw [hdisp]
    exact parse_display _ _ hk
  refine ⟨?_, ?_, ?_⟩
  · unfold editStep
    rw [hfz]
    dsimp only
    rw [if_neg hne1, if_neg hne2, hparse]
    dsimp only
    rw [hval]
    rfl
  · rw [Secret.getVal_insert]
    simp
  · intro k' hk'
    rw [Secret.getVal_insert, if_neg hk']

/-- C9 witness: the frame theorem applied to the spec scenario — a record
with fields username = alice and site = x, selecting "username: alice" and
entering "bob" updates username to bob and leaves site at x. -/
theorem edit_existing_field_frame_witness :
    editStep (StoreIter.mk (some 3) none (some ("bob".toList)))
        (Secret.insert (Secret.insert Secret.new ("site".toList) ("x".toList))
          ("username".toList) ("alice".toList))
      = .cont ((Secret.insert (Secret.insert Secret.new ("site".toList) ("x".toList))
            ("username".toList) ("alice".toList)).insert
          ("username".toList) ("bob".toList))
    ∧ ((Secret.insert (Secret.insert Secret.new ("site".toList) ("x".toList))
            ("username".toList) ("alice".toList)).insert
          ("username".toList) ("bob".toList)).getVal ("username".toList)
        = some ("bob".toList)
    ∧ ∀ k', k' ≠ "username".toList →
        ((Secret.insert (Secret.insert Secret.new ("site".toList) ("x".toList))
              ("username".toList) ("alice".toList)).insert
            ("username".toList) ("bob".toList)).getVal k'
          = (Secret.insert (Secret.insert Secret.new ("site".toList) ("x".toList))
              ("username".toList) ("alice".toList)).getVal k' :=
  edit_existing_field_frame (StoreIter.mk (some 3) none (some ("bob".toList)))
    (Secret.insert (Secret.insert Secret.new ("site".toList) ("x".toList))
      ("username".toList) ("alice".toList))
    3 ("username".toList) ("alice".toList) ("bob".toList)
    (by decide) rfl (by decide) (by decide) rfl

/-- C9 counterexample: a record holding the single field with key "a: b" and
value "c".  Its display string "a: b: c" is the menu entry at index 2;
selecting it and entering "new" leaves key "a: b" mapped to "c" (not "new")
and instead adds a fresh key "a" — the claim as stated is false. -/
theorem edit_existing_field_cex :
    (menuItems (Secret.insert Secret.new ("a: b".toList) ("c".toList))).get? 2
        = some (Field.display (Field.new ("a: b".toList) ("c".toList)))
    ∧ (Secret.insert Secret.new ("a: b".toList) ("c".toList)).getVal ("a: b".toList)
        = some ("c".toList)
    ∧ editStep (StoreIter.mk (some 2) none (some ("new".toList)))
          (Secret.insert Secret.new ("a: b".toList) ("c".toList))
        = .cont ((Secret.insert Secret.new ("a: b".toList) ("c".toList)).insert
            ("a".toList) ("new".toList))
    ∧ ((Secret.insert Secret.new ("a: b".toList) ("c".toList)).insert
          ("a".toList) ("new".toList)).getVal ("a: b".toList) ≠ some ("new".toList)
    ∧ ((Secret.insert Secret.new ("a: b".toList) ("c".toList)).insert
          ("a".toList) ("new".toList)).getVal ("a".toList) = some ("new".toList)
    ∧ (Secret.insert Secret.new ("a: b".toList) ("c".toList)).getVal ("a".toList)
        = none := by
  refine ⟨by decide, by decide, rfl, by decide, by decide, by decide⟩

/-- C1: (i) any store run failing at a step before the final persist makes
no persist call; (ii) when the edit loop exits via "complete": an empty
working Secret fails with EmptyRecordError and no persist call, otherwise
the backend receives exactly one persist call, carrying the full working
Secret under the chosen label (create-or-replace, not a merge). -/
theorem store_persist_once :
    (∀ env e tr, store env = (.error e, tr) → e ≠ WfError.persistError → tr = [])
    ∧ (∀ (env : StoreEnv) (ls : List Str) (label : Str) (d0 d : Secret),
        env.labels = some ls →
        env.labelChoice = some label →
        initialData env (sortStrings ls) label = .ok d0 →
        env.allFieldKeys.isSome = true →
        editLoop env.script d0 = .ok d →
        (d.is_empty = true → store env = (.error .emptyRecordError, []))
          ∧ (d.is_empty = false → store env
              = ((if env.persistOk then .ok () else .error .persistError),
                  [(label, d)]))) := by
  constructor
  · intro env e tr h hne
    unfold store at h
    split at h
    · exact ((Prod.mk.injEq _ _ _ _).mp h).2.symm
    · split at h
      · exact ((Prod.mk.injEq _ _ _ _).mp h).2.symm
      · split at h
        · exact ((Prod.mk.injEq _ _ _ _).mp h).2.symm
        · split at h
          · exact ((Prod.mk.injEq _ _ _ _).mp h).2.symm
          · split at h
            · exact ((Prod.mk.injEq _ _ _ _).mp h).2.symm
            · split at h
              · exact ((Prod.mk.injEq _ _ _ _).mp h).2.symm
              · by_cases hp : env.persistOk
                · rw [if_pos hp] at h
                  exact absurd ((Prod.mk.injEq _ _ _ _).mp h).1 (by simp)
                · rw [if_neg hp] at h
                  have he : WfError.persistError = e :=
                    (Except.error.injEq _ _).mp ((Prod.mk.injEq _ _ _ _).mp h).1
                  exact absurd he.symm hne
  · intro env ls label d0 d hls hch hd0 hks hloop
    obtain ⟨ks, hkeys⟩ := Option.isSome_iff_exists.mp hks
    have hstore : store env
        = (if d.is_empty then ((.error .emptyRecordError, []) : Except WfError Unit × List (Str × Secret))
            else ((if env.persistOk then .ok () else .error .persistError), [(label, d)])) := by
      unfold store
      rw [hls]
      dsimp only
      rw [hch]
      dsimp only
      rw [hd0]
      dsimp only
      rw [hkeys]
      dsimp only
      rw [hloop]
    constructor
    · intro hemp
      rw [hstore, if_pos hemp]
    · intro hemp
      rw [hstore, if_neg (by rw [hemp]; exact Bool.false_ne_true)]

/-- C1 witness: the theorem applied to the spec scenario — no existing
records, label "email", one add-field iteration (token, abc123), then
"complete": exactly one persist call with the Secret token = abc123 under
label "email". -/
theorem store_persist_once_witness :
    store (StoreEnv.mk (some []) (some []) (some ("email".toList)) (fun _ => none)
        [StoreIter.mk (some 0) (some ("token".toList)) (some ("abc123".toList)),
          StoreIter.mk (some 1) none none] true)
      = (.ok (), [(("email".toList),
          Secret.insert Secret.new ("token".toList) ("abc123".toList))]) := by
  have h := (store_persist_once.2
    (StoreEnv.mk (some []) (some []) (some ("email".toList)) (fun _ => none)
      [StoreIter.mk (some 0) (some ("token".toList)) (some ("abc123".toList)),
        StoreIter.mk (some 1) none none] true)
    [] ("email".toList) Secret.new
    (Secret.insert Secret.new ("token".toList) ("abc123".toList))
    rfl rfl rfl rfl rfl).2 rfl
  simpa using h

end FuzzelSecrets
